import Mathlib

/-!
Verification of the murmuration exoplanet-classification pipeline.

This file gives a shallow embedding of the label harmonizer
(`src/data/harmonize.py`), the evaluation / threshold-selection routines
(`src/model/train.py`) and the inference service's vectorization and
decision logic (`api/main.py`), and proves properties of the embedded
definitions.

Modelling conventions:
* Python floats are modelled as rationals (`ℚ`); `NaN` vector entries are
  modelled as `none : Option ℚ`.
* Python strings are modelled as `List Char` so that `upper`/`strip`
  evaluate by kernel reduction.
* `np.argsort` (used on small holdout arrays) is modelled as a stable
  descending sort; every theorem below either does not depend on the tie
  order or is about genuinely stable Python `sorted`.
* Exceptions are modelled with `Except`.
-/

namespace Murmuration

/-- Python `str.upper` on an ASCII string: uppercase every character. -/
def pyUpper (s : List Char) : List Char := s.map Char.toUpper

/-- Python `str.strip`: drop leading and trailing whitespace. -/
def pyStrip (s : List Char) : List Char :=
  ((s.dropWhile Char.isWhitespace).reverse.dropWhile Char.isWhitespace).reverse

/-- The label cleaning applied to disposition columns in `load_and_merge`:
`.astype(str).str.upper().str.strip()`. -/
def pyCleanLabel (s : List Char) : List Char := pyStrip (pyUpper s)

/-- The fixed label set `LABELS` of `harmonize.py`. -/
def LABELS : List (List Char) :=
  ["FALSE POSITIVE".data, "CANDIDATE".data, "CONFIRMED".data]

/-- The fixed TOI disposition mapping table `map_disp` of `load_and_merge`. -/
def MAP_DISP : List (List Char × List Char) :=
  [("CP".data, "CONFIRMED".data), ("KP".data, "CONFIRMED".data),
   ("KNOWN PLANET".data, "CONFIRMED".data), ("CONFIRMED".data, "CONFIRMED".data),
   ("PC".data, "CANDIDATE".data), ("APC".data, "CANDIDATE".data),
   ("CANDIDATE".data, "CANDIDATE".data),
   ("FP".data, "FALSE POSITIVE".data), ("FA".data, "FALSE POSITIVE".data),
   ("FALSE POSITIVE".data, "FALSE POSITIVE".data)]

/-- `pandas.Series.map(map_disp)`: a missing key becomes `NaN` (here `none`). -/
def mapDisp (s : List Char) : Option (List Char) := MAP_DISP.lookup s

/-- The label/row part of `load_and_merge`: KOI rows carry an explicit label
column which is uppercased and stripped; TOI rows carry a raw disposition
code which is uppercased, stripped and translated through `map_disp`
(unmapped codes become `NaN`); the frames are concatenated and only rows
whose label is in `LABELS` are kept.  The non-label columns of a row are
modelled as an opaque payload `α`. -/
def load_and_merge {α : Type} (koi toi : List (List Char × α)) :
    List (List Char × α) :=
  ((koi.map (fun r => (some (pyCleanLabel r.1), r.2)) ++
    toi.map (fun r => (mapDisp (pyCleanLabel r.1), r.2))).filterMap
      (fun r => match r.1 with
        | none => none
        | some l => if l ∈ LABELS then some (l, r.2) else none))

/-- C6: a TOI row whose cleaned disposition code is `FA` is mapped to
`FALSE POSITIVE` and kept; a TOI row whose cleaned code is not in the
mapping table is dropped from the merged output entirely; and every label
in the merged output is one of the three valid labels. -/
theorem load_and_merge_label_policy {α : Type} (koi toi : List (List Char × α))
    (s₁ s₂ : List Char) (a₁ a₂ : α)
    (h₁ : pyCleanLabel s₁ = "FA".data)
    (h₂ : mapDisp (pyCleanLabel s₂) = none) :
    ("FALSE POSITIVE".data, a₁) ∈ load_and_merge koi ((s₁, a₁) :: toi) ∧
    load_and_merge koi ((s₂, a₂) :: toi) = load_and_merge koi toi ∧
    ∀ p ∈ load_and_merge koi toi, p.1 ∈ LABELS := by
  refine ⟨?_, ?_, ?_⟩
  · have hmap : mapDisp (pyCleanLabel s₁) = some ("FALSE POSITIVE".data) := by
      rw [h₁]; rfl
    simp only [load_and_merge, List.map_cons, List.filterMap_append, List.filterMap_cons, hmap]
    have hmem : ("FALSE POSITIVE".data : List Char) ∈ LABELS := by decide
    rw [if_pos hmem]
    exact List.mem_append_right _ (List.mem_cons_self _ _)
  · simp only [load_and_merge, List.map_cons, List.filterMap_append, List.filterMap_cons, h₂]
  · intro p hp
    simp only [load_and_merge, List.mem_filterMap, List.mem_append] at hp
    obtain ⟨r, _, hr⟩ := hp
    split at hr
    · exact absurd hr (by simp)
    · split at hr
      · rename_i hin
        obtain rfl : _ = p := Option.some.inj hr
        exact hin
      · exact absurd hr (by simp)

/-- C6 witness: concrete instantiation with a raw code that cleans to `FA`
and an unrecognized code `ZZ`. -/
theorem load_and_merge_label_policy_witness :
    (pyCleanLabel " fa ".data = "FA".data ∧ mapDisp (pyCleanLabel "zz".data) = none) ∧
    (("FALSE POSITIVE".data, (1 : ℕ)) ∈
        load_and_merge [("confirmed".data, 0)] [(" fa ".data, 1)] ∧
      load_and_merge [("confirmed".data, (0 : ℕ))] [("zz".data, 2)] =
        load_and_merge [("confirmed".data, 0)] [] ∧
      ∀ p ∈ load_and_merge [("confirmed".data, (0 : ℕ))] [], p.1 ∈ LABELS) := by
  refine ⟨⟨by decide, by decide⟩, ?_⟩
  exact load_and_merge_label_policy [("confirmed".data, 0)] [] " fa ".data "zz".data 1 2
    (by decide) (by decide)

/-! ## Inference service (`api/main.py`) -/

/-- The ordered feature list (`FEATURES` / `feature_list.json`). -/
def FEATURES : List (List Char) :=
  ["period".data, "duration".data, "depth".data, "impact".data, "prad".data,
   "insol".data, "teq".data, "steff".data, "slogg".data, "srad".data,
   "smass".data, "smet".data, "star_mag".data, "snr".data, "ntrans".data]

/-- A JSON feature value as received by `/predict`: `null`, a number, or a
string. -/
inductive FeatVal where
  | vnull : FeatVal
  | vnum (q : ℚ) : FeatVal
  | vstr (s : List Char) : FeatVal

/-- Digit string to natural number. -/
def digitsToNat (l : List Char) : ℕ := l.foldl (fun n c => 10 * n + (c.toNat - 48)) 0

/-- Unsigned decimal literal: digits with an optional fractional part. -/
def parseUnsigned (s : List Char) : Option ℚ :=
  match s.dropWhile Char.isDigit with
  | [] => if s.takeWhile Char.isDigit = [] then none else some (digitsToNat s)
  | '.' :: frac =>
      if s.takeWhile Char.isDigit = [] ∧ frac = [] then none
      else if frac.all Char.isDigit then
        some ((digitsToNat (s.takeWhile Char.isDigit) : ℚ) +
          (digitsToNat frac : ℚ) / (10 : ℚ) ^ frac.length)
      else none
  | _ => none

/-- Python `float` on a string, modelled for plain signed decimal
literals; anything else fails the way `float` raises `ValueError`. -/
def parsePyFloat (s : List Char) : Option ℚ :=
  match s with
  | '-' :: r => (parseUnsigned r).map (fun q => -q)
  | '+' :: r => parseUnsigned r
  | _ => parseUnsigned s

/-- One feature value in `to_vector`:
`np.nan if v is None or v == "" else float(v)`.  `NaN` is `none`; a failing
`float` conversion is `Except.error` carrying the `ValueError` message. -/
def pyFloat : FeatVal → Except (List Char) (Option ℚ)
  | .vnull => .ok none
  | .vnum q => .ok (some q)
  | .vstr s =>
      if s = [] then .ok none
      else match parsePyFloat s with
        | some q => .ok (some q)
        | none => .error ("could not convert string to float: '".data ++ s ++ "'".data)

/-- `d.get(f, None)` on the feature dict. -/
def getVal (d : List (List Char × FeatVal)) (f : List Char) : FeatVal :=
  (d.lookup f).getD .vnull

/-- The loop of `to_vector`: convert the features in list order, failing at
the first value `float` cannot convert. -/
def to_vector_go (d : List (List Char × FeatVal)) :
    List (List Char) → Except (List Char) (List (Option ℚ))
  | [] => .ok []
  | f :: fs =>
      match pyFloat (getVal d f) with
      | .error e => .error e
      | .ok v =>
          match to_vector_go d fs with
          | .error e => .error e
          | .ok vs => .ok (v :: vs)

/-- `to_vector`: map the feature dict to the ordered feature vector. -/
def to_vector (d : List (List Char × FeatVal)) : Except (List Char) (List (Option ℚ)) :=
  to_vector_go d FEATURES

/-- Stable descending sort of the probability vector, modelling
`np.argsort(-proba_vec)` read through `proba_vec[...]`. -/
def sortDescQ (l : List ℚ) : List ℚ := l.insertionSort (fun a b => b ≤ a)

/-- The `/predict` acceptance rule:
`accepted = bool(top_p >= th and margin >= 0.05)` where `top_p` and
`second_p` are the two largest entries of the probability vector and
`margin = top_p - second_p`. -/
def predictAccepted (proba : List ℚ) (th : ℚ) : Bool :=
  decide (th ≤ (sortDescQ proba).getD 0 0) &&
    decide ((1 : ℚ)/20 ≤ (sortDescQ proba).getD 0 0 - (sortDescQ proba).getD 1 0)

/-- Outcome of an HTTP request handler: a normal response, an
`HTTPException` with a status code, or an exception that escapes the
handler (an unhandled server error). -/
inductive HttpResult (ρ : Type) where
  | ok (body : ρ)
  | clientError (code : ℕ) (msg : List Char)
  | serverError (msg : List Char)

/-- The `/predict` handler: `to_vector` runs before the `try` block, so a
conversion error escapes unhandled; only exceptions raised by
`model.predict_proba` are converted to `HTTPException(400, str(e))`. -/
def predict (d : List (List Char × FeatVal))
    (model : List (Option ℚ) → Except (List Char) (List ℚ)) (th : ℚ) :
    HttpResult (List ℚ × Bool) :=
  match to_vector d with
  | .error e => .serverError e
  | .ok x =>
      match model x with
      | .error e => .clientError 400 e
      | .ok proba => .ok (proba, predictAccepted proba th)

/-- Maximum of a list of rationals (`np.max`-style; meaningful on nonempty
lists). -/
def maxQ : List ℚ → ℚ
  | [] => 0
  | [x] => x
  | x :: y :: t => max x (maxQ (y :: t))

/-- Second-best value of a list: the maximum after removing one occurrence
of the maximum. -/
def secondBestQ (l : List ℚ) : ℚ := maxQ (l.erase (maxQ l))

/-- C2 evaluation: a `/predict` request whose `period` value is the
unconvertible string `"abc"` makes the `float` call inside `to_vector`
fail; because `to_vector` runs before the handler's `try` block, the
error is not turned into an HTTP 400 response but escapes the handler as
an unhandled server error, for every model and threshold. -/
theorem predict_malformed_value_unhandled
    (model : List (Option ℚ) → Except (List Char) (List ℚ)) (th : ℚ) :
    predict [("period".data, FeatVal.vstr "abc".data)] model th =
      .serverError ("could not convert string to float: 'abc'".data) := rfl

/-- Every member of a list is at most its `maxQ`. -/
theorem le_maxQ : ∀ {l : List ℚ}, ∀ a ∈ l, a ≤ maxQ l
  | [_], a, ha => by
      rcases List.mem_singleton.1 ha with rfl; exact le_of_eq rfl
  | x :: y :: t, a, ha => by
      rcases List.mem_cons.1 ha with rfl | h
      · exact le_max_left _ _
      · exact le_trans (le_maxQ a h) (le_max_right _ _)

/-- `maxQ` of a nonempty list is one of its members. -/
theorem maxQ_mem : ∀ {l : List ℚ}, l ≠ [] → maxQ l ∈ l
  | [x], _ => by simp [maxQ]
  | x :: y :: t, _ => by
      rcases max_cases x (maxQ (y :: t)) with ⟨h, _⟩ | ⟨h, _⟩ <;>
        rw [show maxQ (x :: y :: t) = max x (maxQ (y :: t)) from rfl, h]
      · exact List.mem_cons_self _ _
      · exact List.mem_cons_of_mem _ (maxQ_mem (by simp))

/-- `maxQ` is invariant under permutation. -/
theorem maxQ_perm {l₁ l₂ : List ℚ} (h : l₁.Perm l₂) : maxQ l₁ = maxQ l₂ := by
  rcases eq_or_ne l₁ [] with rfl | h1
  · obtain rfl : l₂ = [] := List.length_eq_zero.1 (by simpa using h.length_eq.symm)
    rfl
  · have h2 : l₂ ≠ [] := by
      intro e
      exact h1 (List.length_eq_zero.1 (by simpa [e] using h.length_eq))
    exact le_antisymm (le_maxQ _ (h.mem_iff.1 (maxQ_mem h1)))
      (le_maxQ _ (h.mem_iff.2 (maxQ_mem h2)))

/-- The stable descending sort is a permutation of the input. -/
theorem sortDescQ_perm (l : List ℚ) : (sortDescQ l).Perm l :=
  List.perm_insertionSort _ l

/-- The stable descending sort is sorted in weakly decreasing order. -/
theorem sortDescQ_sorted (l : List ℚ) :
    List.Sorted (fun a b : ℚ => b ≤ a) (sortDescQ l) :=
  @List.sorted_insertionSort ℚ (fun a b => b ≤ a)
    (fun a b => inferInstanceAs (Decidable (b ≤ a)))
    ⟨fun a b => le_total b a⟩ ⟨fun _ _ _ h1 h2 => le_trans h2 h1⟩ l

/-- C5: the `/predict` decision accepts exactly when the top-class
probability reaches the recommended threshold and the margin between the
top and second-best class probabilities is at least `0.05`. -/
theorem predict_accept_iff (proba : List ℚ) (th : ℚ) (h2 : 2 ≤ proba.length) :
    predictAccepted proba th = true ↔
      (th ≤ maxQ proba ∧ (1 : ℚ)/20 ≤ maxQ proba - secondBestQ proba) := by
  obtain ⟨a, b, t, hs⟩ : ∃ a b t, sortDescQ proba = a :: b :: t := by
    have hlen : (sortDescQ proba).length = proba.length :=
      (sortDescQ_perm proba).length_eq
    rcases h : sortDescQ proba with _ | ⟨a, _ | ⟨b, t⟩⟩
    · rw [h] at hlen; simp at hlen; omega
    · rw [h] at hlen; simp at hlen; omega
    · exact ⟨a, b, t, rfl⟩
  have hperm : (a :: b :: t).Perm proba := hs ▸ sortDescQ_perm proba
  have hsort : List.Sorted (fun a b : ℚ => b ≤ a) (a :: b :: t) :=
    hs ▸ sortDescQ_sorted proba
  have hamax : maxQ proba = a := by
    refine le_antisymm ?_ (le_maxQ a (hperm.mem_iff.1 (List.mem_cons_self _ _)))
    have hmem : maxQ proba ∈ a :: b :: t :=
      hperm.mem_iff.2 (maxQ_mem (by intro e; rw [e] at h2; simp at h2))
    rcases List.mem_cons.1 hmem with he | hmem'
    · exact le_of_eq he
    · exact (List.sorted_cons.1 hsort).1 _ hmem'
  have hbmax : maxQ (b :: t) = b := by
    refine le_antisymm ?_ (le_maxQ b (List.mem_cons_self _ _))
    have hmem : maxQ (b :: t) ∈ b :: t := maxQ_mem (by simp)
    rcases List.mem_cons.1 hmem with he | hmem'
    · exact le_of_eq he
    · exact (List.sorted_cons.1 (List.sorted_cons.1 hsort).2).1 _ hmem'
  have hsecond : secondBestQ proba = b := by
    have hperase : (proba.erase (maxQ proba)).Perm (b :: t) := by
      rw [hamax]
      simpa [List.erase_cons_head] using (hperm.erase a).symm
    rw [secondBestQ, maxQ_perm hperase, hbmax]
  unfold predictAccepted
  rw [hs]
  simp only [List.getD_cons_zero, List.getD_cons_succ, Bool.and_eq_true,
    decide_eq_true_eq]
  rw [hamax, hsecond]

/-- C5 witness: a concrete three-class probability vector that is accepted
at threshold `2/5`. -/
theorem predict_accept_iff_witness :
    2 ≤ ([(1 : ℚ)/2, 3/10, 1/5]).length ∧
    (predictAccepted [(1 : ℚ)/2, 3/10, 1/5] (2/5) = true ↔
      ((2 : ℚ)/5 ≤ maxQ [(1 : ℚ)/2, 3/10, 1/5] ∧
        (1 : ℚ)/20 ≤ maxQ [(1 : ℚ)/2, 3/10, 1/5] - secondBestQ [(1 : ℚ)/2, 3/10, 1/5])) :=
  ⟨by simp, predict_accept_iff _ _ (by simp)⟩

/-- A feature value on which `float` conversion cannot fail: `null`,
empty string, or a number. -/
def safeVal : FeatVal → Prop
  | .vstr s => s = []
  | _ => True

/-- A feature key that `to_vector` maps to `NaN`: absent from the dict,
mapped to `None`, or mapped to the empty string. -/
def missingLike (d : List (List Char × FeatVal)) (f : List Char) : Prop :=
  d.lookup f = none ∨ d.lookup f = some .vnull ∨ d.lookup f = some (.vstr [])

/-- The value fetched for any key of a dict of safe values is safe. -/
theorem getVal_safe (d : List (List Char × FeatVal))
    (hd : ∀ kv ∈ d, safeVal kv.2) (f : List Char) : safeVal (getVal d f) := by
  induction d with
  | nil => exact trivial
  | cons kv rest ih =>
      by_cases h : (f == kv.1) = true
      · simp only [getVal, List.lookup, h, Option.getD_some]
        exact hd kv (List.mem_cons_self _ _)
      · rw [Bool.not_eq_true] at h
        simp only [getVal, List.lookup, h]
        exact ih (fun kv' h' => hd kv' (List.mem_cons_of_mem _ h'))

/-- `float` conversion succeeds on a safe value. -/
theorem pyFloat_safe_ok (v : FeatVal) (hv : safeVal v) : ∃ o, pyFloat v = .ok o := by
  cases v with
  | vnull => exact ⟨none, rfl⟩
  | vnum q => exact ⟨some q, rfl⟩
  | vstr s =>
      rcases hv with rfl
      exact ⟨none, rfl⟩

/-- A missing-like key converts to `NaN`. -/
theorem pyFloat_missingLike (d : List (List Char × FeatVal)) (f : List Char)
    (h : missingLike d f) : pyFloat (getVal d f) = .ok none := by
  rcases h with h | h | h <;> rw [getVal, h] <;> rfl

/-- C7, loop form: on a dict of safe values the vectorization loop never
fails, returns one entry per feature, and puts `NaN` at every position
whose feature key is missing-like. -/
theorem to_vector_go_safe (d : List (List Char × FeatVal))
    (hd : ∀ kv ∈ d, safeVal kv.2) :
    ∀ fs : List (List Char), ∃ v, to_vector_go d fs = .ok v ∧
      v.length = fs.length ∧
      ∀ i f, fs.get? i = some f → missingLike d f → v.get? i = some none := by
  intro fs
  induction fs with
  | nil => exact ⟨[], rfl, rfl, by intro i f h; simp at h⟩
  | cons f fs ih =>
      obtain ⟨v, hgo, hlen, hpos⟩ := ih
      obtain ⟨o, ho⟩ := pyFloat_safe_ok _ (getVal_safe d hd f)
      refine ⟨o :: v, ?_, by simpa using hlen, ?_⟩
      · rw [to_vector_go, ho, hgo]
      · intro i g hg hmiss
        cases i with
        | zero =>
            obtain rfl : f = g := by simpa using hg
            have : o = none := by
              have := pyFloat_missingLike d f hmiss
              rw [ho] at this
              exact Except.ok.inj this
            simp [this]
        | succ i => exact hpos i g (by simpa using hg) hmiss

/-- C7: on a feature dict in which every present value is `None`, the
empty string, or a number, `to_vector` cannot fail; it returns a
full-length vector, and every feature that is absent, `None`, or empty
yields `NaN` at the corresponding position. -/
theorem to_vector_safe_total (d : List (List Char × FeatVal))
    (hd : ∀ kv ∈ d, safeVal kv.2) :
    ∃ v, to_vector d = .ok v ∧ v.length = FEATURES.length ∧
      ∀ i f, FEATURES.get? i = some f → missingLike d f → v.get? i = some none :=
  to_vector_go_safe d hd FEATURES

/-- C7 witness: a dict with a number, an empty string and a `null`; the
positions of `depth` (present but empty) and `duration` (absent) come out
as `NaN`. -/
theorem to_vector_safe_total_witness :
    (∀ kv ∈ ([("period".data, FeatVal.vnum 2), ("depth".data, FeatVal.vstr []),
        ("snr".data, FeatVal.vnull)] : List (List Char × FeatVal)), safeVal kv.2) ∧
    (∃ v, to_vector [("period".data, FeatVal.vnum 2), ("depth".data, FeatVal.vstr []),
        ("snr".data, FeatVal.vnull)] = .ok v ∧ v.length = FEATURES.length ∧
      ∀ i f, FEATURES.get? i = some f →
        missingLike [("period".data, FeatVal.vnum 2), ("depth".data, FeatVal.vstr []),
          ("snr".data, FeatVal.vnull)] f → v.get? i = some none) := by
  have hd : ∀ kv ∈ ([("period".data, FeatVal.vnum 2), ("depth".data, FeatVal.vstr []),
      ("snr".data, FeatVal.vnull)] : List (List Char × FeatVal)), safeVal kv.2 := by
    intro kv hkv
    simp only [List.mem_cons, List.not_mem_nil, or_false] at hkv
    rcases hkv with rfl | rfl | rfl <;> trivial
  exact ⟨hd, to_vector_safe_total _ hd⟩

/-- Discarding dict entries whose key is not in the feature list does not
change any lookup of a feature-list key. -/
theorem getVal_filter (d : List (List Char × FeatVal)) (f : List Char)
    (hf : f ∈ FEATURES) :
    getVal (d.filter (fun kv => decide (kv.1 ∈ FEATURES))) f = getVal d f := by
  induction d with
  | nil => rfl
  | cons kv rest ih =>
      by_cases hk : kv.1 ∈ FEATURES
      · rw [List.filter_cons_of_pos (by simpa using hk)]
        by_cases h : (f == kv.1) = true
        · simp only [getVal, List.lookup, h]
        · rw [Bool.not_eq_true] at h
          simp only [getVal, List.lookup, h] at ih ⊢
          exact ih
      · rw [List.filter_cons_of_neg (by simpa using hk)]
        have h : (f == kv.1) = false := by
          rw [beq_eq_false_iff_ne]
          intro e; exact hk (e ▸ hf)
        simp only [getVal, List.lookup, h] at ih ⊢
        exact ih

/-- The vectorization loop only depends on the dict through the lookups of
the features it walks. -/
theorem to_vector_go_congr (d₁ d₂ : List (List Char × FeatVal)) :
    ∀ fs : List (List Char), (∀ f ∈ fs, getVal d₁ f = getVal d₂ f) →
      to_vector_go d₁ fs = to_vector_go d₂ fs := by
  intro fs
  induction fs with
  | nil => intro _; rfl
  | cons f fs ih =>
      intro h
      rw [to_vector_go, to_vector_go, h f (List.mem_cons_self _ _),
        ih (fun g hg => h g (List.mem_cons_of_mem _ hg))]

/-- Successful runs of the vectorization loop have one entry per walked
feature, each the converted value of that feature's lookup. -/
theorem to_vector_go_ok (d : List (List Char × FeatVal)) :
    ∀ (fs : List (List Char)) (v : List (Option ℚ)), to_vector_go d fs = .ok v →
      v.length = fs.length ∧
      ∀ i f, fs.get? i = some f → pyFloat (getVal d f) = .ok (v.getD i none) := by
  intro fs
  induction fs with
  | nil =>
      intro v hv
      obtain rfl : ([] : List (Option ℚ)) = v := Except.ok.inj hv
      exact ⟨rfl, by intro i f h; simp at h⟩
  | cons f fs ih =>
      intro v hv
      rw [to_vector_go] at hv
      rcases ho : pyFloat (getVal d f) with e | o <;> rw [ho] at hv
      · exact absurd hv (by simp)
      · rcases hgo : to_vector_go d fs with e | vs <;> rw [hgo] at hv
        · exact absurd hv (by simp)
        · obtain rfl : o :: vs = v := Except.ok.inj hv
          obtain ⟨hlen, hpos⟩ := ih vs hgo
          refine ⟨by simpa using hlen, ?_⟩
          intro i g hg
          cases i with
          | zero =>
              obtain rfl : f = g := by simpa using hg
              simpa using ho
          | succ i => simpa using hpos i g (by simpa using hg)

/-- C10: the feature list has 15 entries; dict keys outside the feature
list never affect the result of `to_vector`; and a successful `to_vector`
returns a vector aligned with the feature list: one entry per feature, in
feature-list order. -/
theorem to_vector_aligned (d : List (List Char × FeatVal)) :
    FEATURES.length = 15 ∧
    to_vector d = to_vector (d.filter (fun kv => decide (kv.1 ∈ FEATURES))) ∧
    ∀ v, to_vector d = .ok v → v.length = FEATURES.length ∧
      ∀ i f, FEATURES.get? i = some f → pyFloat (getVal d f) = .ok (v.getD i none) := by
  refine ⟨rfl, ?_, fun v hv => to_vector_go_ok d FEATURES v hv⟩
  exact to_vector_go_congr _ _ FEATURES
    (fun f hf => (getVal_filter d f hf).symm)

/-- C10 witness: a dict with an extraneous key `bogus` and the first
feature `period`; `to_vector` succeeds and the alignment facts hold at
the resulting concrete vector. -/
theorem to_vector_aligned_witness :
    to_vector [("bogus".data, FeatVal.vstr "xyz".data), ("period".data, FeatVal.vnum 2)] =
      .ok [some 2, none, none, none, none, none, none, none, none, none, none,
        none, none, none, none] ∧
    (([some (2 : ℚ), none, none, none, none, none, none, none, none, none, none,
        none, none, none, none].length = FEATURES.length) ∧
      ∀ i f, FEATURES.get? i = some f →
        pyFloat (getVal [("bogus".data, FeatVal.vstr "xyz".data),
            ("period".data, FeatVal.vnum 2)] f) =
          .ok ([some 2, none, none, none, none, none, none, none, none, none,
            none, none, none, none, none].getD i none)) :=
  ⟨rfl, (to_vector_aligned _).2.2 _ rfl⟩

/-! ## Training / evaluation (`src/model/train.py`) -/

/-- Auxiliary scan for `np.argmax`: index of the first maximal element. -/
def rowArgmaxAux : List ℚ → ℕ → ℕ → ℚ → ℕ
  | [], _, bi, _ => bi
  | x :: xs, i, bi, bv =>
      if bv < x then rowArgmaxAux xs (i + 1) i x else rowArgmaxAux xs (i + 1) bi bv

/-- `np.argmax` along a probability row: first index attaining the row
maximum. -/
def rowArgmax : List ℚ → ℕ
  | [] => 0
  | x :: xs => rowArgmaxAux xs 1 0 x

/-- Per-sample pairs of top-class probability (`y_prob.max(axis=1)`) and
correctness indicator (`(y_prob.argmax(axis=1) == y_true).astype(int)`);
the row maximum is `maxQ`. -/
def topCorrect (y_true : List ℕ) (y_prob : List (List ℚ)) : List (ℚ × ℕ) :=
  (y_prob.map maxQ).zip ((y_prob.zip y_true).map
    (fun rt => if rowArgmax rt.1 = rt.2 then 1 else 0))

/-- Stable sort of the (probability, correctness) pairs by decreasing
probability, modelling `order = np.argsort(-top_prob)` applied to both
`probs` and `correct`. -/
def sortPairsDesc (l : List (ℚ × ℕ)) : List (ℚ × ℕ) :=
  l.insertionSort (fun a b => b.1 ≤ a.1)

/-- Cumulative precision over the first `i+1` sorted predictions:
`precision[i] = cum_tp[i] / max(i+1, 1) = cum_tp[i] / (i+1)`. -/
def precAt (cs : List ℕ) (i : ℕ) : ℚ := ((cs.take (i + 1)).sum : ℚ) / ((i : ℚ) + 1)

/-- `np.where(precision >= target_prec)[0]`: the indices whose cumulative
precision meets the target, in increasing order. -/
def qualIdx (cs : List ℕ) (t : ℚ) : List ℕ :=
  (List.range cs.length).filter (fun i => decide (t ≤ precAt cs i))

/-- `threshold_for_precision`: the top-class probability at the last
index whose cumulative precision meets the target, or the fixed fallback
`0.5` when no index qualifies. -/
def threshold_for_precision (y_true : List ℕ) (y_prob : List (List ℚ))
    (target_prec : ℚ) : ℚ :=
  ((qualIdx ((sortPairsDesc (topCorrect y_true y_prob)).map Prod.snd)
      target_prec).getLast?.map
    (fun i => ((sortPairsDesc (topCorrect y_true y_prob)).map Prod.fst).getD i 0)).getD
    (1/2)

/-- Claim-side reading of the threshold property: empirical precision
among all predictions whose confidence is at or above `v`. -/
def precAtOrAbove (P : List (ℚ × ℕ)) (v : ℚ) : ℚ :=
  (((P.filter (fun x => decide (v ≤ x.1))).map Prod.snd).sum : ℚ) /
    ((P.filter (fun x => decide (v ≤ x.1))).length : ℚ)

/-- The stable pair sort is a permutation of its input. -/
theorem sortPairsDesc_perm (l : List (ℚ × ℕ)) : (sortPairsDesc l).Perm l :=
  List.perm_insertionSort _ l

/-- The stable pair sort is weakly decreasing in the first component. -/
theorem sortPairsDesc_sorted (l : List (ℚ × ℕ)) :
    List.Pairwise (fun a b : ℚ × ℕ => b.1 ≤ a.1) (sortPairsDesc l) :=
  @List.sorted_insertionSort (ℚ × ℕ) (fun a b => b.1 ≤ a.1)
    (fun a b => inferInstanceAs (Decidable (b.1 ≤ a.1)))
    ⟨fun a b => le_total b.1 a.1⟩ ⟨fun _ _ _ h1 h2 => le_trans h2 h1⟩ l

/-- Membership in the qualifying-index list. -/
theorem mem_qualIdx (cs : List ℕ) (t : ℚ) (i : ℕ) :
    i ∈ qualIdx cs t ↔ i < cs.length ∧ t ≤ precAt cs i := by
  simp [qualIdx, List.mem_filter, List.mem_range]

/-- The qualifying-index list is strictly increasing. -/
theorem qualIdx_sorted (cs : List ℕ) (t : ℚ) :
    List.Pairwise (· < ·) (qualIdx cs t) :=
  List.Pairwise.sublist (List.filter_sublist _) (List.sorted_lt_range _)

/-- Any member of a strictly increasing list of naturals is at most the
last element. -/
theorem le_getLast_of_chain (l : List ℕ) (hs : List.Pairwise (· < ·) l)
    (x : ℕ) (hx : x ∈ l) (m : ℕ) (hm : l.getLast? = some m) : x ≤ m := by
  have hne : l ≠ [] := by rintro rfl; exact absurd hx (List.not_mem_nil x)
  have hm' : m = l.getLast hne := by
    rw [List.getLast?_eq_getLast l hne] at hm
    exact (Option.some.inj hm).symm
  obtain ⟨⟨j, hj⟩, hxj⟩ := List.mem_iff_get.1 hx
  rw [List.get_eq_getElem] at hxj
  have hlast : l.getLast hne = l[l.length - 1] := List.getLast_eq_getElem l hne
  rcases Nat.lt_or_ge j (l.length - 1) with hlt | hge
  · have hj2 : l.length - 1 < l.length := by omega
    have := (List.pairwise_iff_getElem.1 hs) j (l.length - 1) hj hj2 hlt
    rw [hm', hlast]
    exact le_of_lt (hxj ▸ this)
  · have hj' : j = l.length - 1 := by omega
    subst hj'
    rw [hm', hlast, ← hxj]

/-- A nonempty list has `getLast? = some` of a member. -/
theorem getLast?_some_mem {l : List ℕ} {m : ℕ} (h : l.getLast? = some m) : m ∈ l := by
  have hne : l ≠ [] := by rintro rfl; exact absurd h (by simp)
  rw [List.getLast?_eq_getLast l hne] at h
  exact (Option.some.inj h) ▸ List.getLast_mem hne

/-- C1 amended: if the higher target `t2` is still met by some cumulative
precision (i.e. the `0.5` fallback is not taken for `t2`), then raising
the target precision cannot lower the selected threshold. -/
theorem threshold_for_precision_monotone (yt : List ℕ) (yp : List (List ℚ))
    (t1 t2 : ℚ) (h12 : t1 ≤ t2)
    (h2 : qualIdx ((sortPairsDesc (topCorrect yt yp)).map Prod.snd) t2 ≠ []) :
    threshold_for_precision yt yp t1 ≤ threshold_for_precision yt yp t2 := by
  simp only [threshold_for_precision]
  set s := sortPairsDesc (topCorrect yt yp) with hs
  obtain ⟨i2, hlast2⟩ : ∃ i2, (qualIdx (s.map Prod.snd) t2).getLast? = some i2 := by
    rcases h : (qualIdx (s.map Prod.snd) t2).getLast? with _ | i2
    · exact absurd (List.getLast?_eq_none_iff.1 h) h2
    · exact ⟨i2, rfl⟩
  have hmem2 : i2 ∈ qualIdx (s.map Prod.snd) t2 := getLast?_some_mem hlast2
  obtain ⟨hi2len, hi2prec⟩ := (mem_qualIdx _ _ _).1 hmem2
  have hmem1 : i2 ∈ qualIdx (s.map Prod.snd) t1 :=
    (mem_qualIdx _ _ _).2 ⟨hi2len, le_trans h12 hi2prec⟩
  have h1ne : qualIdx (s.map Prod.snd) t1 ≠ [] := by
    intro e; rw [e] at hmem1; exact absurd hmem1 (List.not_mem_nil _)
  obtain ⟨i1, hlast1⟩ : ∃ i1, (qualIdx (s.map Prod.snd) t1).getLast? = some i1 := by
    rcases h : (qualIdx (s.map Prod.snd) t1).getLast? with _ | i1
    · exact absurd (List.getLast?_eq_none_iff.1 h) h1ne
    · exact ⟨i1, rfl⟩
  obtain ⟨hi1len, _⟩ := (mem_qualIdx _ _ _).1 (getLast?_some_mem hlast1)
  have hle : i2 ≤ i1 := le_getLast_of_chain _ (qualIdx_sorted _ _) _ hmem1 _ hlast1
  rw [hlast1, hlast2, Option.map_some', Option.map_some', Option.getD_some,
    Option.getD_some]
  have hcslen : (s.map Prod.snd).length = s.length := List.length_map _ _
  have hi1' : i1 < (s.map Prod.fst).length := by
    rw [List.length_map]; omega
  have hi2' : i2 < (s.map Prod.fst).length := by
    rw [List.length_map]; omega
  rw [List.getD_eq_getElem _ _ hi1', List.getD_eq_getElem _ _ hi2']
  have hpair : List.Pairwise (fun a b : ℚ => b ≤ a) (s.map Prod.fst) :=
    List.pairwise_map.2 (sortPairsDesc_sorted (topCorrect yt yp))
  rcases Nat.eq_or_lt_of_le hle with rfl | hlt
  · exact le_refl _
  · exact (List.pairwise_iff_getElem.1 hpair) i2 i1 hi2' hi1' hlt

/-- C1 counterexample: two holdout samples in which the more confident
prediction is wrong.  With target `1/2` the selector returns threshold
`4/5`, but raising the target to `1` makes every cumulative precision
miss the target, so the selector falls back to `0.5 < 4/5`: the output is
not monotone in the target. -/
theorem threshold_for_precision_not_monotone :
    (1 : ℚ)/2 ≤ 1 ∧
    threshold_for_precision [1, 1] [[9/10, 1/20, 1/20], [1/10, 4/5, 1/10]] (1/2) = 4/5 ∧
    threshold_for_precision [1, 1] [[9/10, 1/20, 1/20], [1/10, 4/5, 1/10]] 1 = 1/2 ∧
    ¬ (threshold_for_precision [1, 1] [[9/10, 1/20, 1/20], [1/10, 4/5, 1/10]] (1/2) ≤
        threshold_for_precision [1, 1] [[9/10, 1/20, 1/20], [1/10, 4/5, 1/10]] 1) := by
  refine ⟨by norm_num, ?_, ?_, ?_⟩ <;>
    norm_num [threshold_for_precision, topCorrect, maxQ, rowArgmax, rowArgmaxAux,
      sortPairsDesc, List.insertionSort, List.orderedInsert, qualIdx, precAt,
      List.range_succ, List.getLast?, List.filter]

/-- C1 witness: a single correctly classified sample; both targets are
reachable and the thresholds agree. -/
theorem threshold_for_precision_monotone_witness :
    ((1 : ℚ)/2 ≤ 1 ∧
      qualIdx ((sortPairsDesc (topCorrect [0] [[1, 0, 0]])).map Prod.snd) 1 ≠ []) ∧
    threshold_for_precision [0] [[1, 0, 0]] (1/2) ≤
      threshold_for_precision [0] [[1, 0, 0]] 1 := by
  have h2 : qualIdx ((sortPairsDesc (topCorrect [0] [[1, 0, 0]])).map Prod.snd) 1 ≠ [] := by
    norm_num [qualIdx, topCorrect, maxQ, rowArgmax, rowArgmaxAux, sortPairsDesc,
      List.insertionSort, List.orderedInsert, precAt, List.range_succ, List.filter]
  exact ⟨⟨by norm_num, h2⟩,
    threshold_for_precision_monotone _ _ _ _ (by norm_num) h2⟩

/-- If a prefix wholly satisfies `p` and the corresponding suffix wholly
fails it, filtering gives exactly that prefix. -/
theorem filter_eq_take_of {α : Type} (l : List α) (p : α → Bool) (k : ℕ)
    (h1 : ∀ x ∈ l.take k, p x = true) (h2 : ∀ x ∈ l.drop k, p x = false) :
    l.filter p = l.take k := by
  conv_lhs => rw [← List.take_append_drop k l]
  rw [List.filter_append, List.filter_eq_self.2 h1,
    List.filter_eq_nil_iff.2 (fun a ha => by simp [h2 a ha]), List.append_nil]

/-- `precAtOrAbove` is invariant under permutation of the samples. -/
theorem precAtOrAbove_perm {P Q : List (ℚ × ℕ)} (h : P.Perm Q) (v : ℚ) :
    precAtOrAbove P v = precAtOrAbove Q v := by
  have hf := h.filter (fun x => decide (v ≤ x.1))
  rw [precAtOrAbove, precAtOrAbove, (hf.map Prod.snd).sum_eq, hf.length_eq]

/-- On a strictly descending sample list, the at-or-above precision at
the `i`-th sorted probability is the `i`-th cumulative precision. -/
theorem precAtOrAbove_getElem (s : List (ℚ × ℕ))
    (hstrict : List.Pairwise (fun a b : ℚ × ℕ => b.1 < a.1) s)
    (i : ℕ) (hi : i < s.length) :
    precAtOrAbove s ((s.map Prod.fst).getD i 0) = precAt (s.map Prod.snd) i := by
  have hv : (s.map Prod.fst).getD i 0 = s[i].1 := by
    rw [List.getD_eq_getElem _ _ (by rw [List.length_map]; exact hi), List.getElem_map]
  have hft : s.filter (fun x => decide (s[i].1 ≤ x.1)) = s.take (i + 1) := by
    apply filter_eq_take_of
    · intro x hx
      obtain ⟨⟨j, hj⟩, hxj⟩ := List.mem_iff_get.1 hx
      rw [List.get_eq_getElem, List.getElem_take] at hxj
      have hj1 : j < i + 1 := by
        have := hj; rw [List.length_take] at this; omega
      have hle : s[i].1 ≤ s[j].1 := by
        rcases Nat.lt_or_ge j i with hlt | _
        · exact le_of_lt ((List.pairwise_iff_getElem.1 hstrict) j i (by omega) hi hlt)
        · have : j = i := by omega
          subst this; exact le_refl _
      rw [← hxj]
      exact decide_eq_true hle
    · intro x hx
      obtain ⟨⟨j, hj⟩, hxj⟩ := List.mem_iff_get.1 hx
      rw [List.get_eq_getElem, List.getElem_drop] at hxj
      have hj2 : i + 1 + j < s.length := by
        have := hj; rw [List.length_drop] at this; omega
      have hlt : s[i + 1 + j].1 < s[i].1 :=
        (List.pairwise_iff_getElem.1 hstrict) i (i + 1 + j) hi hj2 (by omega)
      rw [← hxj]
      exact decide_eq_false (not_le.2 hlt)
  rw [hv]
  simp only [precAtOrAbove, precAt]
  rw [hft, ← List.map_take, List.length_take, Nat.min_eq_left (by omega)]
  push_cast
  ring_nf

/-- C3 amended: when the per-sample top-class probabilities are pairwise
distinct, `threshold_for_precision` returns the lowest top-class
probability value occurring in the data whose at-or-above empirical
precision meets the target, and exactly `0.5` when no value qualifies. -/
theorem threshold_for_precision_lowest_qualifying (yt : List ℕ) (yp : List (List ℚ))
    (t : ℚ) (hnd : ((topCorrect yt yp).map Prod.fst).Nodup) :
    ((∃ v ∈ (topCorrect yt yp).map Prod.fst,
        t ≤ precAtOrAbove (topCorrect yt yp) v) →
      (threshold_for_precision yt yp t ∈ (topCorrect yt yp).map Prod.fst ∧
        t ≤ precAtOrAbove (topCorrect yt yp) (threshold_for_precision yt yp t) ∧
        ∀ v ∈ (topCorrect yt yp).map Prod.fst,
          t ≤ precAtOrAbove (topCorrect yt yp) v →
            threshold_for_precision yt yp t ≤ v)) ∧
    ((¬ ∃ v ∈ (topCorrect yt yp).map Prod.fst,
        t ≤ precAtOrAbove (topCorrect yt yp) v) →
      threshold_for_precision yt yp t = 1/2) := by
  set P := topCorrect yt yp with hP
  set s := sortPairsDesc P with hsdef
  have hperm : s.Perm P := hsdef ▸ sortPairsDesc_perm P
  have hsorted : List.Pairwise (fun a b : ℚ × ℕ => b.1 ≤ a.1) s :=
    hsdef ▸ sortPairsDesc_sorted P
  have hmapperm : (s.map Prod.fst).Perm (P.map Prod.fst) := hperm.map _
  have hnd' : (s.map Prod.fst).Nodup := hmapperm.nodup_iff.2 hnd
  have hstrict : List.Pairwise (fun a b : ℚ × ℕ => b.1 < a.1) s := by
    have h2 : List.Pairwise (fun a b : ℚ × ℕ => a.1 ≠ b.1) s :=
      List.pairwise_map.1 hnd'
    exact (hsorted.and h2).imp (fun h => lt_of_le_of_ne h.1 (Ne.symm h.2))
  have hval : ∀ i, ∀ hi : i < s.length,
      precAtOrAbove P ((s.map Prod.fst).getD i 0) = precAt (s.map Prod.snd) i := by
    intro i hi
    rw [← precAtOrAbove_perm hperm]
    exact precAtOrAbove_getElem s hstrict i hi
  have hmemiff : ∀ v, v ∈ P.map Prod.fst ↔
      ∃ i, ∃ _ : i < s.length, (s.map Prod.fst).getD i 0 = v := by
    intro v
    rw [← hmapperm.mem_iff]
    constructor
    · intro hv
      obtain ⟨⟨i, hi⟩, hvi⟩ := List.mem_iff_get.1 hv
      rw [List.get_eq_getElem] at hvi
      have hi' : i < s.length := by rw [List.length_map] at hi; exact hi
      refine ⟨i, hi', ?_⟩
      rw [List.getD_eq_getElem _ _ (by rw [List.length_map]; exact hi')]
      exact hvi
    · rintro ⟨i, hi, rfl⟩
      rw [List.getD_eq_getElem _ _ (by rw [List.length_map]; exact hi)]
      exact List.getElem_mem _
  rcases hlast : (qualIdx (s.map Prod.snd) t).getLast? with _ | i
  · have hempty : qualIdx (s.map Prod.snd) t = [] := List.getLast?_eq_none_iff.1 hlast
    have hnone : ∀ i, i < s.length → ¬ t ≤ precAt (s.map Prod.snd) i := by
      intro i hi hti
      have hmem : i ∈ qualIdx (s.map Prod.snd) t :=
        (mem_qualIdx _ _ _).2 ⟨by rw [List.length_map]; exact hi, hti⟩
      rw [hempty] at hmem
      exact absurd hmem (List.not_mem_nil _)
    have hnoex : ¬ ∃ v ∈ P.map Prod.fst, t ≤ precAtOrAbove P v := by
      rintro ⟨v, hv, hq⟩
      obtain ⟨i, hi, rfl⟩ := (hmemiff v).1 hv
      rw [hval i hi] at hq
      exact hnone i hi hq
    have hthr : threshold_for_precision yt yp t = 1/2 := by
      simp only [threshold_for_precision]
      rw [← hP, ← hsdef, hlast]
      rfl
    exact ⟨fun h => absurd h hnoex, fun _ => hthr⟩
  · have hmem : i ∈ qualIdx (s.map Prod.snd) t := getLast?_some_mem hlast
    obtain ⟨hilen', hiprec⟩ := (mem_qualIdx _ _ _).1 hmem
    have hilen : i < s.length := by rw [List.length_map] at hilen'; exact hilen'
    have hthr : threshold_for_precision yt yp t = (s.map Prod.fst).getD i 0 := by
      simp only [threshold_for_precision]
      rw [← hP, ← hsdef, hlast, Option.map_some', Option.getD_some]
    have hqual : threshold_for_precision yt yp t ∈ P.map Prod.fst := by
      rw [hthr]; exact (hmemiff _).2 ⟨i, hilen, rfl⟩
    have hqt : t ≤ precAtOrAbove P (threshold_for_precision yt yp t) := by
      rw [hthr, hval i hilen]; exact hiprec
    have hmin : ∀ v ∈ P.map Prod.fst, t ≤ precAtOrAbove P v →
        threshold_for_precision yt yp t ≤ v := by
      intro v hv hq
      obtain ⟨j, hj, rfl⟩ := (hmemiff v).1 hv
      rw [hval j hj] at hq
      have hjmem : j ∈ qualIdx (s.map Prod.snd) t :=
        (mem_qualIdx _ _ _).2 ⟨by rw [List.length_map]; exact hj, hq⟩
      have hji : j ≤ i := le_getLast_of_chain _ (qualIdx_sorted _ _) _ hjmem _ hlast
      rw [hthr, List.getD_eq_getElem _ _ (by rw [List.length_map]; exact hilen),
        List.getD_eq_getElem _ _ (by rw [List.length_map]; exact hj)]
      have hpair : List.Pairwise (fun a b : ℚ => b ≤ a) (s.map Prod.fst) :=
        List.pairwise_map.2 hsorted
      rcases Nat.eq_or_lt_of_le hji with rfl | hlt
      · exact le_refl _
      · exact (List.pairwise_iff_getElem.1 hpair) j i
          (by rw [List.length_map]; exact hj) (by rw [List.length_map]; exact hilen) hlt
    exact ⟨fun _ => ⟨hqual, hqt, hmin⟩, fun hno => absurd ⟨_, hqual, hqt⟩ hno⟩

/-- C3 counterexample: nine-tenths of the mass is tied.  Five samples,
two correct at confidence `9/10` and three at confidence `4/5` of which
one is correct: the selector returns `4/5`, but the empirical precision
among all predictions with confidence at or above `4/5` is `3/5`, below
the target `2/3`, while the value `9/10` does qualify — so the returned
value is neither a qualifying cutoff nor the `0.5` fallback. -/
theorem threshold_for_precision_not_lowest :
    threshold_for_precision [0, 0, 1, 1, 0]
        [[9/10, 1/20, 1/20], [9/10, 1/20, 1/20], [4/5, 1/10, 1/10],
          [4/5, 1/10, 1/10], [4/5, 1/10, 1/10]] (2/3) = 4/5 ∧
    ¬ ((2 : ℚ)/3 ≤ precAtOrAbove (topCorrect [0, 0, 1, 1, 0]
        [[9/10, 1/20, 1/20], [9/10, 1/20, 1/20], [4/5, 1/10, 1/10],
          [4/5, 1/10, 1/10], [4/5, 1/10, 1/10]]) (4/5)) ∧
    ((9 : ℚ)/10 ∈ (topCorrect [0, 0, 1, 1, 0]
        [[9/10, 1/20, 1/20], [9/10, 1/20, 1/20], [4/5, 1/10, 1/10],
          [4/5, 1/10, 1/10], [4/5, 1/10, 1/10]]).map Prod.fst ∧
      (2 : ℚ)/3 ≤ precAtOrAbove (topCorrect [0, 0, 1, 1, 0]
        [[9/10, 1/20, 1/20], [9/10, 1/20, 1/20], [4/5, 1/10, 1/10],
          [4/5, 1/10, 1/10], [4/5, 1/10, 1/10]]) (9/10)) := by
  refine ⟨?_, ?_, ?_, ?_⟩ <;>
    norm_num [threshold_for_precision, topCorrect, maxQ, rowArgmax, rowArgmaxAux,
      sortPairsDesc, List.insertionSort, List.orderedInsert, qualIdx, precAt,
      precAtOrAbove, List.range_succ, List.getLast?, List.filter]

/-- C3 witness: two samples with distinct top-class probabilities `9/10`
(correct) and `2/5` (incorrect); at target `3/4` the value `9/10`
qualifies. -/
theorem threshold_for_precision_lowest_qualifying_witness :
    ((topCorrect [0, 1] [[9/10, 1/20, 1/20], [2/5, 2/5, 1/5]]).map Prod.fst).Nodup ∧
    (((∃ v ∈ (topCorrect [0, 1] [[9/10, 1/20, 1/20], [2/5, 2/5, 1/5]]).map Prod.fst,
        (3 : ℚ)/4 ≤ precAtOrAbove (topCorrect [0, 1] [[9/10, 1/20, 1/20], [2/5, 2/5, 1/5]]) v) →
      (threshold_for_precision [0, 1] [[9/10, 1/20, 1/20], [2/5, 2/5, 1/5]] (3/4) ∈
          (topCorrect [0, 1] [[9/10, 1/20, 1/20], [2/5, 2/5, 1/5]]).map Prod.fst ∧
        (3 : ℚ)/4 ≤ precAtOrAbove (topCorrect [0, 1] [[9/10, 1/20, 1/20], [2/5, 2/5, 1/5]])
          (threshold_for_precision [0, 1] [[9/10, 1/20, 1/20], [2/5, 2/5, 1/5]] (3/4)) ∧
        ∀ v ∈ (topCorrect [0, 1] [[9/10, 1/20, 1/20], [2/5, 2/5, 1/5]]).map Prod.fst,
          (3 : ℚ)/4 ≤ precAtOrAbove (topCorrect [0, 1] [[9/10, 1/20, 1/20], [2/5, 2/5, 1/5]]) v →
            threshold_for_precision [0, 1] [[9/10, 1/20, 1/20], [2/5, 2/5, 1/5]] (3/4) ≤ v)) ∧
    ((¬ ∃ v ∈ (topCorrect [0, 1] [[9/10, 1/20, 1/20], [2/5, 2/5, 1/5]]).map Prod.fst,
        (3 : ℚ)/4 ≤ precAtOrAbove (topCorrect [0, 1] [[9/10, 1/20, 1/20], [2/5, 2/5, 1/5]]) v) →
      threshold_for_precision [0, 1] [[9/10, 1/20, 1/20], [2/5, 2/5, 1/5]] (3/4) = 1/2)) := by
  have hnd : ((topCorrect [0, 1] [[9/10, 1/20, 1/20], [2/5, 2/5, 1/5]]).map Prod.fst).Nodup := by
    norm_num [topCorrect, maxQ, rowArgmax, rowArgmaxAux, List.nodup_cons]
  exact ⟨hnd, threshold_for_precision_lowest_qualifying _ _ _ hnd⟩

/-- Calibration output of `ece_multiclass`: parallel per-nonempty-bin
lists of bin midpoint, empirical accuracy, mean confidence and
population. -/
structure CalBins where
  bin_mid : List ℚ
  acc : List ℚ
  conf : List ℚ
  count : List ℕ

/-- Left edge of calibration bin `i` out of `nb`
(`bins = np.linspace(0, 1, n_bins+1)`). -/
def binLo (nb i : ℕ) : ℚ := (i : ℚ) / (nb : ℚ)

/-- Membership of a top-class probability in calibration bin `i`: the
last bin is closed on both ends, the others half-open. -/
def inBin (nb i : ℕ) (p : ℚ) : Bool :=
  decide (binLo nb i ≤ p) &&
    (if i < nb - 1 then decide (p < binLo nb (i + 1)) else decide (p ≤ binLo nb (i + 1)))

/-- Population of calibration bin `i` (`mask.sum()`). -/
def binCount (pairs : List (ℚ × ℕ)) (nb i : ℕ) : ℕ :=
  (pairs.filter (fun x => inBin nb i x.1)).length

/-- Mean confidence of bin `i` (`top_prob[mask].mean()`). -/
def binConf (pairs : List (ℚ × ℕ)) (nb i : ℕ) : ℚ :=
  ((pairs.filter (fun x => inBin nb i x.1)).map Prod.fst).sum / (binCount pairs nb i : ℚ)

/-- Mean empirical accuracy of bin `i` (`correct[mask].mean()`). -/
def binAcc (pairs : List (ℚ × ℕ)) (nb i : ℕ) : ℚ :=
  (((pairs.filter (fun x => inBin nb i x.1)).map Prod.snd).sum : ℚ) / (binCount pairs nb i : ℚ)

/-- Midpoint of bin `i` (`(lo+hi)/2`). -/
def binMid (nb i : ℕ) : ℚ := (binLo nb i + binLo nb (i + 1)) / 2

/-- Loop body of `ece_multiclass`: skip empty bins, otherwise record the
bin and accumulate `mask.mean() * abs(acc - conf)`. -/
def eceStep (pairs : List (ℚ × ℕ)) (nb : ℕ) (st : ℚ × CalBins) (i : ℕ) : ℚ × CalBins :=
  if binCount pairs nb i = 0 then st
  else
    (st.1 + ((binCount pairs nb i : ℚ) / (pairs.length : ℚ)) *
        |binAcc pairs nb i - binConf pairs nb i|,
      ⟨st.2.bin_mid ++ [binMid nb i], st.2.acc ++ [binAcc pairs nb i],
        st.2.conf ++ [binConf pairs nb i], st.2.count ++ [binCount pairs nb i]⟩)

/-- `ece_multiclass`: bin the per-sample top-class probabilities and
return the expected calibration error with the per-bin records. -/
def ece_multiclass (y_true : List ℕ) (y_prob : List (List ℚ)) (n_bins : ℕ) :
    ℚ × CalBins :=
  (List.range n_bins).foldl (eceStep (topCorrect y_true y_prob) n_bins)
    (0, ⟨[], [], [], []⟩)

/-- Closed form of the `ece_multiclass` fold: the accumulated error is the
sum of the per-bin weighted gaps (empty bins contribute zero), and the
record lists enumerate the non-empty bins in order. -/
theorem eceStep_foldl (pairs : List (ℚ × ℕ)) (nb : ℕ) :
    ∀ (l : List ℕ) (e0 : ℚ) (B : CalBins),
      l.foldl (eceStep pairs nb) (e0, B) =
        (e0 + (l.map (fun i => ((binCount pairs nb i : ℚ) / (pairs.length : ℚ)) *
            |binAcc pairs nb i - binConf pairs nb i|)).sum,
          ⟨B.bin_mid ++
              (l.filter (fun i => decide (binCount pairs nb i ≠ 0))).map (binMid nb),
            B.acc ++
              (l.filter (fun i => decide (binCount pairs nb i ≠ 0))).map (binAcc pairs nb),
            B.conf ++
              (l.filter (fun i => decide (binCount pairs nb i ≠ 0))).map (binConf pairs nb),
            B.count ++
              (l.filter (fun i => decide (binCount pairs nb i ≠ 0))).map (binCount pairs nb)⟩) := by
  intro l
  induction l with
  | nil => intro e0 B; simp
  | cons i l ih =>
      intro e0 B
      rw [List.foldl_cons]
      by_cases hc : binCount pairs nb i = 0
      · rw [show eceStep pairs nb (e0, B) i = (e0, B) from by simp [eceStep, hc]]
        rw [ih e0 B]
        rw [List.map_cons, List.sum_cons, List.filter_cons_of_neg (by simp [hc])]
        rw [hc]
        push_cast
        rw [zero_div, zero_mul, zero_add]
      · rw [show eceStep pairs nb (e0, B) i =
            (e0 + ((binCount pairs nb i : ℚ) / (pairs.length : ℚ)) *
                |binAcc pairs nb i - binConf pairs nb i|,
              ⟨B.bin_mid ++ [binMid nb i], B.acc ++ [binAcc pairs nb i],
                B.conf ++ [binConf pairs nb i], B.count ++ [binCount pairs nb i]⟩)
          from by simp [eceStep, hc]]
        rw [ih]
        rw [List.map_cons, List.sum_cons, List.filter_cons_of_pos (by simp [hc])]
        simp only [List.map_cons, List.append_assoc, List.singleton_append, add_assoc]

/-- Sums over `List.range` agree with sums over `Finset.range`. -/
theorem list_range_map_sum {M : Type} [AddCommMonoid M] (n : ℕ) (f : ℕ → M) :
    ((List.range n).map f).sum = ∑ i in Finset.range n, f i := by
  induction n with
  | zero => simp
  | succ n ih =>
      rw [List.range_succ, List.map_append, List.sum_append, Finset.sum_range_succ, ih]
      simp

/-- Characterization of the non-final bins of ten. -/
theorem inBin_iff_lt (i : ℕ) (hi : i < 9) (p : ℚ) :
    inBin 10 i p = true ↔ (i : ℚ)/10 ≤ p ∧ p < ((i : ℚ) + 1)/10 := by
  have h : i < 10 - 1 := by omega
  simp only [inBin, binLo, if_pos h, Bool.and_eq_true, decide_eq_true_eq]
  push_cast
  tauto

/-- Characterization of the final, doubly closed bin. -/
theorem inBin_last_iff (p : ℚ) :
    inBin 10 9 p = true ↔ (9 : ℚ)/10 ≤ p ∧ p ≤ 1 := by
  have h : ¬ (9 < 10 - 1) := by omega
  simp only [inBin, binLo, if_neg h, Bool.and_eq_true, decide_eq_true_eq]
  norm_num

/-- Every probability in `[0,1]` lies in exactly one of the ten bins. -/
theorem sum_inBin_eq_one (p : ℚ) (h0 : 0 ≤ p) (h1 : p ≤ 1) :
    (∑ i in Finset.range 10, if inBin 10 i p = true then (1 : ℕ) else 0) = 1 := by
  obtain ⟨i0, hi0lt, hi0in, huniq⟩ : ∃ i0, i0 < 10 ∧ inBin 10 i0 p = true ∧
      ∀ j, j < 10 → inBin 10 j p = true → j = i0 := by
    rcases le_or_lt (9/10 : ℚ) p with hge | hlt
    · refine ⟨9, by omega, (inBin_last_iff p).2 ⟨hge, h1⟩, ?_⟩
      intro j hj hin
      by_contra hne
      have hj9 : j < 9 := by omega
      have := ((inBin_iff_lt j hj9 p).1 hin).2
      have hc : (j : ℚ) + 1 ≤ 9 := by
        have : (j : ℚ) ≤ 8 := by exact_mod_cast (by omega : j ≤ 8)
        linarith
      have : p < 9/10 := lt_of_lt_of_le this (by linarith)
      linarith
    · have hp10 : (10 : ℚ) * p < 9 := by linarith
      have hnn : (0 : ℤ) ≤ ⌊(10 : ℚ) * p⌋ := Int.floor_nonneg.2 (by linarith)
      have hfl9 : ⌊(10 : ℚ) * p⌋ < 9 := Int.floor_lt.2 (by exact_mod_cast hp10)
      refine ⟨(⌊(10 : ℚ) * p⌋).toNat, by omega, ?_, ?_⟩
      · have hcast : ((⌊(10 : ℚ) * p⌋).toNat : ℚ) = ((⌊(10 : ℚ) * p⌋ : ℤ) : ℚ) := by
          exact_mod_cast congrArg (fun z : ℤ => (z : ℚ)) (Int.toNat_of_nonneg hnn)
        rw [inBin_iff_lt _ (by omega)]
        constructor
        · rw [div_le_iff₀ (by norm_num : (0 : ℚ) < 10)]
          rw [hcast]
          calc ((⌊(10 : ℚ) * p⌋ : ℤ) : ℚ) ≤ 10 * p := Int.floor_le _
            _ = p * 10 := by ring
        · rw [lt_div_iff₀ (by norm_num : (0 : ℚ) < 10)]
          rw [hcast]
          calc p * 10 = 10 * p := by ring
            _ < (⌊(10 : ℚ) * p⌋ : ℚ) + 1 := Int.lt_floor_add_one _
      · intro j hj hin
        rcases Nat.lt_or_ge j 9 with hj9 | hj9
        · obtain ⟨hle, hlt'⟩ := (inBin_iff_lt j hj9 p).1 hin
          have h1' : (j : ℚ) ≤ 10 * p := by
            rw [div_le_iff₀ (by norm_num : (0 : ℚ) < 10)] at hle
            linarith
          have h2' : (10 : ℚ) * p < (j : ℚ) + 1 := by
            rw [lt_div_iff₀ (by norm_num : (0 : ℚ) < 10)] at hlt'
            linarith
          have hfe : ⌊(10 : ℚ) * p⌋ = (j : ℤ) := by
            rw [Int.floor_eq_iff]
            constructor
            · exact_mod_cast h1'
            · exact_mod_cast h2'
          omega
        · have hj9' : j = 9 := by omega
          subst hj9'
          have := ((inBin_last_iff p).1 hin).1
          linarith
  rw [Finset.sum_eq_single_of_mem i0 (Finset.mem_range.2 hi0lt)]
  · rw [if_pos hi0in]
  · intro j hj hne
    rw [if_neg]
    intro hin
    exact hne (huniq j (Finset.mem_range.1 hj) hin)

/-- C4 partition core: the ten bins partition samples whose top-class
probability lies in `[0,1]`. -/
theorem sum_binCount (pairs : List (ℚ × ℕ))
    (hp : ∀ x ∈ pairs, 0 ≤ x.1 ∧ x.1 ≤ 1) :
    ∑ i in Finset.range 10, binCount pairs 10 i = pairs.length := by
  induction pairs with
  | nil => simp [binCount]
  | cons x P ih =>
      have hx := hp x (List.mem_cons_self _ _)
      have hP : ∀ y ∈ P, 0 ≤ y.1 ∧ y.1 ≤ 1 :=
        fun y hy => hp y (List.mem_cons_of_mem _ hy)
      have hsplit : ∀ i, binCount (x :: P) 10 i =
          (if inBin 10 i x.1 = true then 1 else 0) + binCount P 10 i := by
        intro i
        rw [binCount, binCount, List.filter_cons]
        by_cases h : inBin 10 i x.1 = true
        · rw [if_pos h, if_pos h, List.length_cons]
          omega
        · rw [if_neg h, if_neg h]
          omega
      calc ∑ i in Finset.range 10, binCount (x :: P) 10 i
          = ∑ i in Finset.range 10,
              ((if inBin 10 i x.1 = true then 1 else 0) + binCount P 10 i) :=
            Finset.sum_congr rfl (fun i _ => hsplit i)
        _ = (∑ i in Finset.range 10, if inBin 10 i x.1 = true then (1 : ℕ) else 0) +
              ∑ i in Finset.range 10, binCount P 10 i := Finset.sum_add_distrib
        _ = 1 + P.length := by rw [sum_inBin_eq_one x.1 hx.1 hx.2, ih hP]
        _ = (x :: P).length := by rw [List.length_cons]; omega

/-- C4: the ten equal-width bins partition the samples (so the total
population is the sample count), the returned ECE is the
population-weighted mean absolute gap between per-bin accuracy and mean
confidence, and the returned record lists enumerate exactly the
populations, mean confidences and mean accuracies of the non-empty bins. -/
theorem ece_multiclass_spec (yt : List ℕ) (yp : List (List ℚ))
    (hrange : ∀ r ∈ yp, 0 ≤ maxQ r ∧ maxQ r ≤ 1) :
    (∑ i in Finset.range 10, binCount (topCorrect yt yp) 10 i =
        (topCorrect yt yp).length) ∧
    (ece_multiclass yt yp 10).1 =
      (∑ i in Finset.range 10, (binCount (topCorrect yt yp) 10 i : ℚ) *
          |binAcc (topCorrect yt yp) 10 i - binConf (topCorrect yt yp) 10 i|) /
        ((topCorrect yt yp).length : ℚ) ∧
    (ece_multiclass yt yp 10).2.count = ((List.range 10).filter
        (fun i => decide (binCount (topCorrect yt yp) 10 i ≠ 0))).map
        (binCount (topCorrect yt yp) 10) ∧
    (ece_multiclass yt yp 10).2.conf = ((List.range 10).filter
        (fun i => decide (binCount (topCorrect yt yp) 10 i ≠ 0))).map
        (binConf (topCorrect yt yp) 10) ∧
    (ece_multiclass yt yp 10).2.acc = ((List.range 10).filter
        (fun i => decide (binCount (topCorrect yt yp) 10 i ≠ 0))).map
        (binAcc (topCorrect yt yp) 10) := by
  have hfst : ∀ x ∈ topCorrect yt yp, 0 ≤ x.1 ∧ x.1 ≤ 1 := by
    intro x hx
    have h1 : x.1 ∈ yp.map maxQ := (List.of_mem_zip hx).1
    obtain ⟨r, hr, he⟩ := List.mem_map.1 h1
    rw [← he]
    exact hrange r hr
  refine ⟨sum_binCount _ hfst, ?_, ?_, ?_, ?_⟩ <;>
    rw [ece_multiclass, eceStep_foldl] <;> dsimp only
  · rw [zero_add, list_range_map_sum]
    simp only [div_mul_eq_mul_div]
    rw [← Finset.sum_div]
  · rw [List.nil_append]
  · rw [List.nil_append]
  · rw [List.nil_append]

/-- C4 witness: two samples with top-class probabilities `3/5` and
`9/20`, both within `[0,1]`. -/
theorem ece_multiclass_spec_witness :
    (∀ r ∈ ([[3/5, 3/10, 1/10], [9/20, 7/20, 1/5]] : List (List ℚ)),
        0 ≤ maxQ r ∧ maxQ r ≤ 1) ∧
    ((∑ i in Finset.range 10,
        binCount (topCorrect [0, 1] [[3/5, 3/10, 1/10], [9/20, 7/20, 1/5]]) 10 i =
        (topCorrect [0, 1] [[3/5, 3/10, 1/10], [9/20, 7/20, 1/5]]).length) ∧
      (ece_multiclass [0, 1] [[3/5, 3/10, 1/10], [9/20, 7/20, 1/5]] 10).1 =
        (∑ i in Finset.range 10,
            (binCount (topCorrect [0, 1] [[3/5, 3/10, 1/10], [9/20, 7/20, 1/5]]) 10 i : ℚ) *
            |binAcc (topCorrect [0, 1] [[3/5, 3/10, 1/10], [9/20, 7/20, 1/5]]) 10 i -
              binConf (topCorrect [0, 1] [[3/5, 3/10, 1/10], [9/20, 7/20, 1/5]]) 10 i|) /
          ((topCorrect [0, 1] [[3/5, 3/10, 1/10], [9/20, 7/20, 1/5]]).length : ℚ) ∧
      (ece_multiclass [0, 1] [[3/5, 3/10, 1/10], [9/20, 7/20, 1/5]] 10).2.count =
        ((List.range 10).filter (fun i =>
            decide (binCount (topCorrect [0, 1] [[3/5, 3/10, 1/10], [9/20, 7/20, 1/5]]) 10 i ≠ 0))).map
          (binCount (topCorrect [0, 1] [[3/5, 3/10, 1/10], [9/20, 7/20, 1/5]]) 10) ∧
      (ece_multiclass [0, 1] [[3/5, 3/10, 1/10], [9/20, 7/20, 1/5]] 10).2.conf =
        ((List.range 10).filter (fun i =>
            decide (binCount (topCorrect [0, 1] [[3/5, 3/10, 1/10], [9/20, 7/20, 1/5]]) 10 i ≠ 0))).map
          (binConf (topCorrect [0, 1] [[3/5, 3/10, 1/10], [9/20, 7/20, 1/5]]) 10) ∧
      (ece_multiclass [0, 1] [[3/5, 3/10, 1/10], [9/20, 7/20, 1/5]] 10).2.acc =
        ((List.range 10).filter (fun i =>
            decide (binCount (topCorrect [0, 1] [[3/5, 3/10, 1/10], [9/20, 7/20, 1/5]]) 10 i ≠ 0))).map
          (binAcc (topCorrect [0, 1] [[3/5, 3/10, 1/10], [9/20, 7/20, 1/5]]) 10)) := by
  have hr : ∀ r ∈ ([[3/5, 3/10, 1/10], [9/20, 7/20, 1/5]] : List (List ℚ)),
      0 ≤ maxQ r ∧ maxQ r ≤ 1 := by
    intro r hrm
    simp only [List.mem_cons, List.not_mem_nil, or_false] at hrm
    rcases hrm with rfl | rfl <;> constructor <;> norm_num [maxQ]
  exact ⟨hr, ece_multiclass_spec _ _ hr⟩

/-- C8: when in every non-empty bin the mean confidence equals the mean
empirical accuracy, the returned ECE is exactly zero. -/
theorem ece_multiclass_perfectly_calibrated (yt : List ℕ) (yp : List (List ℚ))
    (hcal : ∀ i < 10, binCount (topCorrect yt yp) 10 i ≠ 0 →
      binConf (topCorrect yt yp) 10 i = binAcc (topCorrect yt yp) 10 i) :
    (ece_multiclass yt yp 10).1 = 0 := by
  rw [ece_multiclass, eceStep_foldl]
  dsimp only
  rw [zero_add]
  apply List.sum_eq_zero
  intro x hx
  obtain ⟨i, hi, rfl⟩ := List.mem_map.1 hx
  have hi10 : i < 10 := List.mem_range.1 hi
  by_cases hc : binCount (topCorrect yt yp) 10 i = 0
  · rw [hc]
    push_cast
    rw [zero_div, zero_mul]
  · rw [hcal i hi10 hc, sub_self, abs_zero, mul_zero]

/-- C8 witness: a single sample predicted with full confidence and
correctly, so the only non-empty bin has confidence `1` and accuracy `1`. -/
theorem ece_multiclass_perfectly_calibrated_witness :
    (∀ i < 10, binCount (topCorrect [0] [[1, 0, 0]]) 10 i ≠ 0 →
      binConf (topCorrect [0] [[1, 0, 0]]) 10 i =
        binAcc (topCorrect [0] [[1, 0, 0]]) 10 i) ∧
    (ece_multiclass [0] [[1, 0, 0]] 10).1 = 0 := by
  have hcal : ∀ i < 10, binCount (topCorrect [0] [[1, 0, 0]]) 10 i ≠ 0 →
      binConf (topCorrect [0] [[1, 0, 0]]) 10 i =
        binAcc (topCorrect [0] [[1, 0, 0]]) 10 i := by
    intro i hi
    interval_cases i <;>
      norm_num [binCount, binConf, binAcc, inBin, binLo, topCorrect, maxQ,
        rowArgmax, rowArgmaxAux, List.filter]
  exact ⟨hcal, ece_multiclass_perfectly_calibrated _ _ hcal⟩

/-- The `pairs` loop of `main`: all off-diagonal `(true, pred)` label
pairs of the 3x3 confusion matrix with their counts, in loop order. -/
def confusion_pairs (cm : ℕ → ℕ → ℕ) : List (List Char × List Char × ℕ) :=
  (List.range 3).flatMap (fun i =>
    ((List.range 3).filter (fun j => decide (i ≠ j))).map
      (fun j => (LABELS.getD i [], LABELS.getD j [], cm i j)))

/-- `pairs_sorted = sorted(pairs, key=count, reverse=True)[:5]`: the
confusion-pair summary, sorted by descending count (stable, as Python
`sorted` with `reverse=True`) and truncated to the top five. -/
def top_confusions (cm : ℕ → ℕ → ℕ) : List (List Char × List Char × ℕ) :=
  ((confusion_pairs cm).insertionSort (fun a b => b.2.2 ≤ a.2.2)).take 5

/-- On a pairwise-related list, every element of a prefix is related to
every element of the corresponding suffix. -/
theorem take_drop_dominance {α : Type} (l : List α) (R : α → α → Prop)
    (hs : List.Pairwise R l) (n : ℕ) :
    ∀ p ∈ l.take n, ∀ q ∈ l.drop n, R p q := by
  intro p hp q hq
  obtain ⟨⟨j, hj⟩, hpj⟩ := List.mem_iff_get.1 hp
  obtain ⟨⟨k, hk⟩, hqk⟩ := List.mem_iff_get.1 hq
  rw [List.get_eq_getElem, List.getElem_take] at hpj
  rw [List.get_eq_getElem, List.getElem_drop] at hqk
  have hj' : j < n := by
    have := hj; rw [List.length_take] at this; omega
  have hk' : n + k < l.length := by
    have := hk; rw [List.length_drop] at this; omega
  have hR := (List.pairwise_iff_getElem.1 hs) j (n + k) (by omega) hk' (by omega)
  rw [hpj, hqk] at hR
  exact hR

/-- C9: for every confusion matrix, the confusion-pair summary contains
only off-diagonal pairs (distinct true and predicted labels), is sorted
in descending order of count, has at most five entries, and consists of
the highest-count pairs: together with the dropped remainder it is a
permutation of all off-diagonal pairs, and every dropped pair's count is
at most every retained pair's count. -/
theorem top_confusions_spec (cm : ℕ → ℕ → ℕ) :
    (∀ p ∈ top_confusions cm, p.1 ≠ p.2.1) ∧
    List.Pairwise (fun a b : List Char × List Char × ℕ => b.2.2 ≤ a.2.2)
      (top_confusions cm) ∧
    (top_confusions cm).length ≤ 5 ∧
    ∃ rest, (top_confusions cm ++ rest).Perm (confusion_pairs cm) ∧
      ∀ p ∈ top_confusions cm, ∀ q ∈ rest, q.2.2 ≤ p.2.2 := by
  have hsorted : List.Pairwise (fun a b : List Char × List Char × ℕ => b.2.2 ≤ a.2.2)
      ((confusion_pairs cm).insertionSort (fun a b => b.2.2 ≤ a.2.2)) :=
    @List.sorted_insertionSort _ (fun a b : List Char × List Char × ℕ => b.2.2 ≤ a.2.2)
      (fun a b => inferInstanceAs (Decidable (b.2.2 ≤ a.2.2)))
      ⟨fun a b => Nat.le_total b.2.2 a.2.2⟩
      ⟨fun _ _ _ h1 h2 => Nat.le_trans h2 h1⟩ _
  refine ⟨?_, ?_, ?_, ?_⟩
  · intro p hp
    have h1 := List.mem_of_mem_take hp
    have hp' := ((List.perm_insertionSort
        (fun a b : List Char × List Char × ℕ => b.2.2 ≤ a.2.2) _).mem_iff).1 h1
    simp only [confusion_pairs, List.mem_flatMap, List.mem_map, List.mem_filter,
      List.mem_range, decide_eq_true_eq] at hp'
    obtain ⟨i, hi, j, ⟨hj, hij⟩, rfl⟩ := hp'
    interval_cases i <;> interval_cases j <;> simp_all <;> decide
  · exact List.Pairwise.sublist (List.take_sublist _ _) hsorted
  · exact List.length_take_le _ _
  · refine ⟨((confusion_pairs cm).insertionSort (fun a b => b.2.2 ≤ a.2.2)).drop 5,
      ?_, ?_⟩
    · rw [top_confusions, List.take_append_drop]
      exact List.perm_insertionSort _ _
    · exact take_drop_dominance _ _ hsorted 5

end Murmuration
